import Mathlib

/-!
Verification development for the dgraph bulk-loader chunkers and pipeline
(`dgraph/cmd/bulk/loader.go`).

Modelling conventions (shallow embedding):
* An input stream is a `List Char` of the runes remaining to be read; a
  `bufio.Reader`'s `ReadRune` pops the head, `UnreadRune` pushes it back.
* Go errors relevant to this file are enumerated in `GoErr`; `io.EOF` is
  `GoErr.eof`, `bufio.ErrBufferFull` is `GoErr.bufferFull`, and the
  `fmt.Errorf`/`errors.New` values produced by the chunkers get one
  constructor each.  In the pure model the only I/O "failure" is running
  out of input, so read primitives fail only with `eof` (or `bufferFull`
  for the bounded `ReadSlice`).
* Fallible Go functions returning `(T, error)` become either
  `Except GoErr T` or a tuple carrying an `Option GoErr`, matching how the
  caller inspects the pair.
-/

namespace DgraphBulk

/-- Go error values that appear in the chunker code paths of loader.go. -/
inductive GoErr where
  /-- `io.EOF` -/
  | eof
  /-- `bufio.ErrBufferFull` -/
  | bufferFull
  /-- `fmt.Errorf("expected json map start. Found: %v", ch)` -/
  | mapStart (ch : Char)
  /-- `fmt.Errorf("json file must contain array. Found: %v", ch)` -/
  | arrayStart (ch : Char)
  /-- `errors.New("malformed json")` -/
  | malformedJson
  /-- `errors.New("not all of json file consumed")` -/
  | notConsumed
deriving DecidableEq

/-- Go's `unicode.IsSpace` (White_Space property), as used by `slurpSpace`. -/
def goIsSpace (c : Char) : Bool :=
  c = ' ' || c = '\t' || c = '\n' || c.val = 11 || c.val = 12 || c = '\r' ||
  c.val = 0x85 || c.val = 0xA0 || c.val = 0x1680 ||
  (0x2000 ≤ c.val && c.val ≤ 0x200A) ||
  c.val = 0x2028 || c.val = 0x2029 || c.val = 0x202F || c.val = 0x205F ||
  c.val = 0x3000

/-- loader.go `slurpSpace`: read runes while they are whitespace, unreading
the first non-space rune.  Returns the remaining stream; the only possible
error is `io.EOF` (stream exhausted while skipping spaces). -/
def slurpSpace : List Char → Except GoErr (List Char)
  | [] => .error .eof
  | ch :: rest => if goIsSpace ch then slurpSpace rest else .ok (ch :: rest)

/-- loader.go `slurpQuoted`: copy runes into `out` until the closing quote,
copying the rune after a backslash without interpretation.  Returns the
grown buffer and the remaining stream; errors with `io.EOF` if the stream
ends before the closing quote. -/
def slurpQuoted (out : List Char) : List Char → Except GoErr (List Char × List Char)
  | [] => .error .eof
  | ch :: rest =>
    if ch = '\\' then
      match rest with
      | [] => .error .eof
      | esc :: rest2 => slurpQuoted (out ++ [ch, esc]) rest2
    else if ch = '"' then .ok (out ++ [ch], rest)
    else slurpQuoted (out ++ [ch]) rest

theorem slurpQuoted_rest_lt {out s o r} (h : slurpQuoted out s = .ok (o, r)) :
    r.length < s.length := by
  induction out, s using slurpQuoted.induct generalizing o r with
  | case1 out => simp [slurpQuoted] at h
  | case2 out => simp [slurpQuoted] at h
  | case3 out esc rest2 ih =>
    simp only [slurpQuoted, if_true] at h
    have := ih h
    simp; omega
  | case4 out rest2 hne =>
    unfold slurpQuoted at h
    simp at h
    obtain ⟨h1, h2⟩ := h
    subst h2
    simp
  | case5 out esc rest2 hb hq ih =>
    unfold slurpQuoted at h
    rw [if_neg hb, if_neg hq] at h
    have := ih h
    simp only [List.length_cons]
    omega

/-- The brace-matching loop of `jsonChunker.chunk` (loader.go lines 292-312):
starting at nesting `depth` (1 after the opening brace was consumed), copy
runes into `out`; a brace adjusts the depth, a quote enters `slurpQuoted`,
and the loop ends when the depth returns to zero.  Running out of input
mid-object yields `errors.New("malformed json")`; an error from
`slurpQuoted` (only `io.EOF` in this model) is forwarded as is. -/
def scanJson (out : List Char) (depth : Nat) (s : List Char) :
    Except GoErr (List Char × List Char) :=
  if depth = 0 then .ok (out, s)
  else
    match s with
    | [] => .error .malformedJson
    | ch :: rest =>
      if ch = '{' then scanJson (out ++ [ch]) (depth + 1) rest
      else if ch = '}' then scanJson (out ++ [ch]) (depth - 1) rest
      else if ch = '"' then
        match hq : slurpQuoted (out ++ [ch]) rest with
        | .error e => .error e
        | .ok (out2, rest2) => scanJson out2 depth rest2
      else scanJson (out ++ [ch]) depth rest
termination_by s.length
decreasing_by
  · simp
  · simp
  · have := slurpQuoted_rest_lt hq
    simp
    omega
  · simp

/-- loader.go `jsonChunker.begin`: skip whitespace and consume the opening
array bracket, failing with the "json file must contain array" error on any
other rune. -/
def jsonBegin (s : List Char) : Except GoErr (List Char) :=
  match slurpSpace s with
  | .error e => .error e
  | .ok s1 =>
    match s1 with
    | [] => .error .eof
    | ch :: rest => if ch = '[' then .ok rest else .error (.arrayStart ch)

/-- loader.go `jsonChunker.chunk`: the result is the returned buffer (`none`
models Go's `nil` buffer), the returned error (`none` models Go's `nil`
error, `some GoErr.eof` is `io.EOF`), and the remaining stream.  Every
error-returning path of the Go code leaves the reader exhausted or aborts
the run, so the remaining stream on those paths is recorded as what the
reader actually still holds (`[]` at end of input, the unread tail after a
consumed unexpected rune). -/
def jsonChunk (s : List Char) : Option (List Char) × Option GoErr × List Char :=
  match slurpSpace s with
  | .error e => (some [], some e, [])
  | .ok s1 =>
    match s1 with
    | [] => (some [], some .eof, [])
    | ch :: s2 =>
      if ch = '{' then
        match scanJson [ch] 1 s2 with
        | .error e => (none, some e, [])
        | .ok (out, s3) =>
          match slurpSpace s3 with
          | .error e => (none, some e, [])
          | .ok s4 =>
            match s4 with
            | [] => (none, some .eof, [])
            | c2 :: s5 =>
              if c2 = ']' then (some out, some .eof, s5)
              else if c2 = ',' then (some out, none, s5)
              else (some out, none, c2 :: s5)
      else (none, some (.mapStart ch), s2)

/-- loader.go `jsonChunker.end`: succeeds exactly when skipping whitespace
runs into end of stream; any other outcome is the "not all of json file
consumed" error. -/
def jsonEnd (s : List Char) : Except GoErr Unit :=
  match slurpSpace s with
  | .error .eof => .ok ()
  | _ => .error .notConsumed

theorem slurpSpace_length_le {s s1 : List Char} (h : slurpSpace s = .ok s1) :
    s1.length ≤ s.length := by
  induction s with
  | nil => simp [slurpSpace] at h
  | cons c rest ih =>
    by_cases hsp : goIsSpace c
    · simp only [slurpSpace, hsp, if_true] at h
      have := ih h
      simp
      omega
    · simp only [slurpSpace, hsp, Bool.false_eq_true, if_false,
        Except.ok.injEq] at h
      subst h
      exact le_rfl

theorem scanJson_depth0 (out s : List Char) : scanJson out 0 s = .ok (out, s) := by
  unfold scanJson
  rw [if_pos rfl]

theorem scanJson_nil {out : List Char} {d : Nat} (hd : d ≠ 0) :
    scanJson out d [] = .error .malformedJson := by
  conv_lhs => rw [scanJson]
  rw [if_neg hd]

theorem scanJson_open {out : List Char} {d : Nat} {rest : List Char} (hd : d ≠ 0) :
    scanJson out d ('{' :: rest) = scanJson (out ++ ['{']) (d + 1) rest := by
  conv_lhs => rw [scanJson]
  rw [if_neg hd, if_pos rfl]

theorem scanJson_close {out : List Char} {d : Nat} {rest : List Char} (hd : d ≠ 0) :
    scanJson out d ('}' :: rest) = scanJson (out ++ ['}']) (d - 1) rest := by
  conv_lhs => rw [scanJson]
  rw [if_neg hd, if_neg (by decide : ¬('}' : Char) = '{'), if_pos rfl]

theorem scanJson_quote_err {out : List Char} {d : Nat} {rest : List Char} {e : GoErr}
    (hd : d ≠ 0) (hsq : slurpQuoted (out ++ ['"']) rest = .error e) :
    scanJson out d ('"' :: rest) = .error e := by
  conv_lhs => rw [scanJson]
  rw [if_neg hd]
  show (match hq : slurpQuoted (out ++ ['"']) rest with
    | .error e => (.error e : Except GoErr (List Char × List Char))
    | .ok (out2, rest2) => scanJson out2 d rest2) = .error e
  split
  · rename_i heq
    rw [hsq] at heq
    cases heq
    rfl
  · rename_i heq
    rw [hsq] at heq
    cases heq

theorem scanJson_quote_ok {out : List Char} {d : Nat} {rest out2 rest2 : List Char}
    (hd : d ≠ 0) (hsq : slurpQuoted (out ++ ['"']) rest = .ok (out2, rest2)) :
    scanJson out d ('"' :: rest) = scanJson out2 d rest2 := by
  conv_lhs => rw [scanJson]
  rw [if_neg hd]
  show (match hq : slurpQuoted (out ++ ['"']) rest with
    | .error e => (.error e : Except GoErr (List Char × List Char))
    | .ok (out2, rest2) => scanJson out2 d rest2) = scanJson out2 d rest2
  split
  · rename_i heq
    rw [hsq] at heq
    cases heq
  · rename_i heq
    rw [hsq] at heq
    cases heq
    rfl

theorem scanJson_other {out : List Char} {d : Nat} {ch : Char} {rest : List Char}
    (hd : d ≠ 0) (h1 : ch ≠ '{') (h2 : ch ≠ '}') (h3 : ch ≠ '"') :
    scanJson out d (ch :: rest) = scanJson (out ++ [ch]) d rest := by
  conv_lhs => rw [scanJson]
  rw [if_neg hd]
  show (if ch = '{' then scanJson (out ++ [ch]) (d + 1) rest
    else if ch = '}' then scanJson (out ++ [ch]) (d - 1) rest
    else if ch = '"' then
      match hq : slurpQuoted (out ++ [ch]) rest with
      | .error e => .error e
      | .ok (out2, rest2) => scanJson out2 d rest2
    else scanJson (out ++ [ch]) d rest) = scanJson (out ++ [ch]) d rest
  rw [if_neg h1, if_neg h2, if_neg h3]

theorem scanJson_rest_le : ∀ (n : Nat) {out : List Char} {d : Nat}
    {s o r : List Char}, s.length = n → scanJson out d s = .ok (o, r) →
    r.length ≤ s.length := by
  intro n
  induction n using Nat.strong_induction_on with
  | _ n ih =>
    intro out d s o r hn h
    by_cases hd : d = 0
    · subst hd
      rw [scanJson_depth0] at h
      cases h
      exact le_rfl
    · cases s with
      | nil =>
        rw [scanJson_nil hd] at h
        cases h
      | cons ch rest =>
        subst hn
        by_cases h1 : ch = '{'
        · subst h1
          rw [scanJson_open hd] at h
          have := ih rest.length (by simp) rfl h
          simp only [List.length_cons]
          omega
        · by_cases h2 : ch = '}'
          · subst h2
            rw [scanJson_close hd] at h
            have := ih rest.length (by simp) rfl h
            simp only [List.length_cons]
            omega
          · by_cases h3 : ch = '"'
            · subst h3
              cases hsq : slurpQuoted (out ++ ['"']) rest with
              | error e =>
                rw [scanJson_quote_err hd hsq] at h
                cases h
              | ok p =>
                obtain ⟨out2, rest2⟩ := p
                rw [scanJson_quote_ok hd hsq] at h
                have hlt := slurpQuoted_rest_lt hsq
                have := ih rest2.length (by simp only [List.length_cons]; omega) rfl h
                simp only [List.length_cons]
                omega
            · rw [scanJson_other hd h1 h2 h3] at h
              have := ih rest.length (by simp) rfl h
              simp only [List.length_cons]
              omega

theorem jsonChunk_none_rest_lt {s : List Char} {b : Option (List Char)}
    {r : List Char} (h : jsonChunk s = (b, none, r)) : r.length < s.length := by
  unfold jsonChunk at h
  cases h1 : slurpSpace s with
  | error e => rw [h1] at h; cases h
  | ok s1 =>
    rw [h1] at h
    have hs1 := slurpSpace_length_le h1
    cases s1 with
    | nil => cases h
    | cons ch s2 =>
      simp only at h
      by_cases hch : ch = '{'
      · rw [if_pos hch] at h
        cases h2 : scanJson [ch] 1 s2 with
        | error e => rw [h2] at h; cases h
        | ok p =>
          obtain ⟨out, s3⟩ := p
          rw [h2] at h
          simp only at h
          have hs3 := scanJson_rest_le s2.length rfl h2
          cases h3 : slurpSpace s3 with
          | error e => rw [h3] at h; cases h
          | ok s4 =>
            rw [h3] at h
            simp only at h
            have hs4 := slurpSpace_length_le h3
            cases s4 with
            | nil => cases h
            | cons c2 s5 =>
              simp only at h
              by_cases hc2 : c2 = ']'
              · rw [if_pos hc2] at h; cases h
              · rw [if_neg hc2] at h
                by_cases hc2' : c2 = ','
                · rw [if_pos hc2'] at h
                  cases h
                  simp only [List.length_cons] at hs1 hs4 ⊢
                  omega
                · rw [if_neg hc2'] at h
                  cases h
                  simp only [List.length_cons] at hs1 hs4 ⊢
                  omega
      · rw [if_neg hch] at h
        cases h

/-- Appending a chunk buffer to the list of queued chunks, as the reader
goroutine in `loader.mapStage` does: `if chunkBuf != nil && chunkBuf.Len() >
0 \x7b ld.readerChunkCh <- chunkBuf \x7d`. -/
def pushChunk (acc : List (List Char)) (buf : Option (List Char)) :
    List (List Char) :=
  match buf with
  | some b => if b = [] then acc else acc ++ [b]
  | none => acc

/-- The reader-goroutine loop of `loader.mapStage` (lines 434-444) driving a
JSON chunker: repeatedly call `chunk`, push every non-empty buffer, stop on
`io.EOF`, and abort (`x.Check`) on any other error.  Returns the chunks
delivered to the queue, the fatal error if any (`none` means the loop left
via the clean `io.EOF` break), and the remaining stream. -/
def jsonDrive (s : List Char) (acc : List (List Char)) :
    List (List Char) × Option GoErr × List Char :=
  match hc : jsonChunk s with
  | (buf, none, rest) => jsonDrive rest (pushChunk acc buf)
  | (buf, some .eof, rest) => (pushChunk acc buf, none, rest)
  | (buf, some e, rest) => (pushChunk acc buf, some e, rest)
termination_by s.length
decreasing_by
  exact jsonChunk_none_rest_lt hc

theorem jsonDrive_none (acc : List (List Char)) {s rest : List Char}
    {buf : Option (List Char)} (hc : jsonChunk s = (buf, none, rest)) :
    jsonDrive s acc = jsonDrive rest (pushChunk acc buf) := by
  conv_lhs => rw [jsonDrive]
  split
  · rename_i buf' rest' heq
    rw [hc] at heq
    cases heq
    rfl
  · rename_i buf' rest' heq
    rw [hc] at heq
    cases heq
  · rename_i buf' e rest' hne heq
    rw [hc] at heq
    cases heq

theorem jsonDrive_eof (acc : List (List Char)) {s rest : List Char}
    {buf : Option (List Char)} (hc : jsonChunk s = (buf, some .eof, rest)) :
    jsonDrive s acc = (pushChunk acc buf, none, rest) := by
  conv_lhs => rw [jsonDrive]
  split
  · rename_i buf' rest' heq
    rw [hc] at heq
    cases heq
  · rename_i buf' rest' heq
    rw [hc] at heq
    cases heq
    rfl
  · rename_i buf' e rest' hne heq
    rw [hc] at heq
    cases heq
    exact ((hne rfl).elim : _)

theorem jsonDrive_fatal (acc : List (List Char)) {s rest : List Char}
    {buf : Option (List Char)} {e : GoErr} (hc : jsonChunk s = (buf, some e, rest))
    (hne : e ≠ .eof) : jsonDrive s acc = (pushChunk acc buf, some e, rest) := by
  conv_lhs => rw [jsonDrive]
  split
  · rename_i buf' rest' heq
    rw [hc] at heq
    cases heq
  · rename_i buf' rest' heq
    rw [hc] at heq
    cases heq
    exact absurd rfl hne
  · rename_i buf' e' rest' hne' heq
    rw [hc] at heq
    cases heq
    rfl

/-- One whole reader goroutine over a JSON file, as run by `loader.mapStage`:
`x.Check(chunker.begin(r))`, the chunk loop, then `x.Check(chunker.end(r))`.
`Except.error` is a fatal `x.Check` abort; `Except.ok` is a clean reader
completion carrying the chunks delivered to the shared queue. -/
def jsonReader (s : List Char) : Except GoErr (List (List Char)) :=
  match jsonBegin s with
  | .error e => .error e
  | .ok s1 =>
    match jsonDrive s1 [] with
    | (_, some e, _) => .error e
    | (chunks, none, rest) =>
      match jsonEnd rest with
      | .error e => .error e
      | .ok _ => .ok chunks

/-- Texts accepted in one run of `slurpQuoted`: everything after the opening
quote, up to and including the matching unescaped closing quote.  A
backslash makes the following character opaque, so escaped quotes and any
brace characters may occur freely inside. -/
inductive QuotedTail : List Char → Prop where
  | closing : QuotedTail ['"']
  | esc (c : Char) (s : List Char) : QuotedTail s → QuotedTail ('\\' :: c :: s)
  | other (c : Char) (s : List Char) : c ≠ '\\' → c ≠ '"' → QuotedTail s →
      QuotedTail (c :: s)

/-- `Bal d t` — reading `t` with `scanJson` from nesting depth `d` consumes
exactly `t`, ending with depth zero, never hitting zero earlier.  This is
the lexical grammar of "balanced object remainders": `'\x7b' :: t` with
`Bal 1 t` is exactly one complete object as the chunker delimits it. -/
inductive Bal : Nat → List Char → Prop where
  | done : Bal 0 []
  | openBrace (d : Nat) (s : List Char) : Bal (d + 2) s → Bal (d + 1) ('{' :: s)
  | closeBrace (d : Nat) (s : List Char) : Bal d s → Bal (d + 1) ('}' :: s)
  | quoted (d : Nat) (q s : List Char) : QuotedTail q → Bal (d + 1) s →
      Bal (d + 1) ('"' :: (q ++ s))
  | other (d : Nat) (c : Char) (s : List Char) : c ≠ '{' → c ≠ '}' → c ≠ '"' →
      Bal (d + 1) s → Bal (d + 1) (c :: s)

theorem slurpQuoted_of_quotedTail {q : List Char} (hq : QuotedTail q) :
    ∀ (out rest : List Char), slurpQuoted out (q ++ rest) = .ok (out ++ q, rest) := by
  induction hq with
  | closing =>
    intro out rest
    show slurpQuoted out ('"' :: rest) = _
    unfold slurpQuoted
    rw [if_neg (by decide : ¬('"' : Char) = '\\'), if_pos rfl]
  | esc c s _ ih =>
    intro out rest
    show slurpQuoted out ('\\' :: c :: (s ++ rest)) = _
    unfold slurpQuoted
    rw [if_pos rfl]
    show slurpQuoted (out ++ ['\\', c]) (s ++ rest) = _
    rw [ih]
    simp
  | other c s hb hquote _ ih =>
    intro out rest
    show slurpQuoted out (c :: (s ++ rest)) = _
    unfold slurpQuoted
    rw [if_neg hb, if_neg hquote]
    rw [ih]
    simp

/-- Soundness of the object scanner against the `Bal` grammar, stated at a
shifted depth so the induction goes through: scanning `t ++ r` from depth
`k + d` first consumes exactly `t` (reaching depth `d`), then continues
with `r`. -/
theorem scanJson_bal {k : Nat} {t : List Char} (hb : Bal k t) :
    ∀ (d : Nat) (out r : List Char),
      scanJson out (k + d) (t ++ r) = scanJson (out ++ t) d r := by
  induction hb with
  | done =>
    intro d out r
    simp
  | openBrace d0 s _ ih =>
    intro d out r
    show scanJson out (d0 + 1 + d) ('{' :: (s ++ r)) = _
    rw [scanJson_open (by omega)]
    have h1 : d0 + 1 + d + 1 = d0 + 2 + d := by omega
    rw [h1, ih d (out ++ ['{']) r]
    simp
  | closeBrace d0 s _ ih =>
    intro d out r
    show scanJson out (d0 + 1 + d) ('}' :: (s ++ r)) = _
    rw [scanJson_close (by omega)]
    have h1 : d0 + 1 + d - 1 = d0 + d := by omega
    rw [h1, ih d (out ++ ['}']) r]
    simp
  | quoted d0 q s hq _ ih =>
    intro d out r
    show scanJson out (d0 + 1 + d) ('"' :: (q ++ s ++ r)) = _
    have hsq : slurpQuoted (out ++ ['"']) (q ++ (s ++ r)) =
        .ok (out ++ ['"'] ++ q, s ++ r) := slurpQuoted_of_quotedTail hq _ _
    rw [List.append_assoc q s r]
    rw [scanJson_quote_ok (by omega) hsq]
    rw [ih d (out ++ ['"'] ++ q) r]
    simp
  | other d0 c s h1 h2 h3 _ ih =>
    intro d out r
    show scanJson out (d0 + 1 + d) (c :: (s ++ r)) = _
    rw [scanJson_other (by omega) h1 h2 h3]
    rw [ih d (out ++ [c]) r]
    simp

/-- The complete-consumption corollary: an object remainder `t` with
`Bal 1 t` is consumed exactly, and the scan returns the grown buffer and
the rest of the stream. -/
theorem scanJson_bal_one {t : List Char} (hb : Bal 1 t) (out r : List Char) :
    scanJson out 1 (t ++ r) = .ok (out ++ t, r) := by
  have h := scanJson_bal hb 0 out r
  rw [h, scanJson_depth0]

theorem slurpSpace_not_space {c : Char} {s : List Char} (h : goIsSpace c = false) :
    slurpSpace (c :: s) = .ok (c :: s) := by
  simp only [slurpSpace, h, Bool.false_eq_true, if_false]

/-- A complete object (`'\x7b' :: t` with `Bal 1 t`) followed by a
non-space rune `c2`: `jsonChunker.chunk` consumes the whole object and then
dispatches on `c2` exactly as loader.go lines 314-332 do — `']'` ends the
array (buffer plus `io.EOF`), `','` continues, anything else is unread and
left for the next call. -/
theorem jsonChunk_obj_sep {t : List Char} (hb : Bal 1 t) (c2 : Char)
    (tail : List Char) (hsp2 : goIsSpace c2 = false) :
    jsonChunk ('{' :: (t ++ c2 :: tail)) =
      if c2 = ']' then (some ('{' :: t), some .eof, tail)
      else if c2 = ',' then (some ('{' :: t), none, tail)
      else (some ('{' :: t), none, c2 :: tail) := by
  have h1 : slurpSpace ('{' :: (t ++ c2 :: tail)) = .ok ('{' :: (t ++ c2 :: tail)) :=
    slurpSpace_not_space (by decide)
  have hscan : scanJson ['{'] 1 (t ++ c2 :: tail) = .ok ('{' :: t, c2 :: tail) := by
    simpa using scanJson_bal_one hb ['{'] (c2 :: tail)
  have h2 : slurpSpace (c2 :: tail) = .ok (c2 :: tail) := slurpSpace_not_space hsp2
  simp only [jsonChunk, h1, hscan, h2, if_true]

/-- C2: an element whose quoted string literals contain brace characters or
backslash-escaped quotes is returned whole by `jsonChunker.chunk`: the runes
consumed inside the `slurpQuoted` sub-scan (including the single
backslash-escaped rune, copied without interpretation) never change the
object-nesting depth counter, so any text `t` in the `Bal 1` grammar — whose
`QuotedTail` strings may contain `\x7b`, `\x7d` and `\"` freely — yields the
entire object `'\x7b' :: t` as one chunk, with no early termination at a
brace embedded in a string. -/
theorem c2_strings_do_not_perturb_depth :
    (∀ (q out rest : List Char), QuotedTail q →
      slurpQuoted out (q ++ rest) = .ok (out ++ q, rest)) ∧
    (∀ (t : List Char), Bal 1 t →
      jsonChunk ('{' :: (t ++ [']'])) = (some ('{' :: t), some .eof, [])) := by
  constructor
  · intro q out rest hq
    exact slurpQuoted_of_quotedTail hq out rest
  · intro t hb
    have h := jsonChunk_obj_sep hb ']' [] (by decide)
    simpa using h

/-- C2 witness at the spec's example element: the object text of
`\x7b"k": "a\x7db"\x7d` (whose second string literal holds a closing brace)
and the quoted tail `a\\"\x7db"` (an escaped quote, then a brace). -/
theorem c2_strings_do_not_perturb_depth_witness :
    slurpQuoted ['x'] (['a', '\\', '"', '}', 'b', '"'] ++ ['z']) =
      .ok (['x'] ++ ['a', '\\', '"', '}', 'b', '"'], ['z']) ∧
    jsonChunk ('{' :: (['"', 'k', '"', ':', ' ', '"', 'a', '}', 'b', '"', '}'] ++ [']'])) =
      (some ('{' :: ['"', 'k', '"', ':', ' ', '"', 'a', '}', 'b', '"', '}']),
        some .eof, []) := by
  have hq : QuotedTail ['a', '\\', '"', '}', 'b', '"'] :=
    QuotedTail.other 'a' _ (by decide) (by decide)
      (QuotedTail.esc '"' _
        (QuotedTail.other '}' _ (by decide) (by decide)
          (QuotedTail.other 'b' _ (by decide) (by decide) QuotedTail.closing)))
  have hb : Bal 1 ['"', 'k', '"', ':', ' ', '"', 'a', '}', 'b', '"', '}'] := by
    have hk : QuotedTail ['k', '"'] :=
      QuotedTail.other 'k' _ (by decide) (by decide) QuotedTail.closing
    have hv : QuotedTail ['a', '}', 'b', '"'] :=
      QuotedTail.other 'a' _ (by decide) (by decide)
        (QuotedTail.other '}' _ (by decide) (by decide)
          (QuotedTail.other 'b' _ (by decide) (by decide) QuotedTail.closing))
    have h3 : Bal 1 ['}'] := Bal.closeBrace 0 [] Bal.done
    have h2 : Bal 1 ('"' :: (['a', '}', 'b', '"'] ++ ['}'])) :=
      Bal.quoted 0 ['a', '}', 'b', '"'] ['}'] hv h3
    have h1 : Bal 1 (':' :: ' ' :: '"' :: (['a', '}', 'b', '"'] ++ ['}'])) :=
      Bal.other 0 ':' _ (by decide) (by decide) (by decide)
        (Bal.other 0 ' ' _ (by decide) (by decide) (by decide) h2)
    have h0 : Bal 1 ('"' :: (['k', '"'] ++
        (':' :: ' ' :: '"' :: (['a', '}', 'b', '"'] ++ ['}'])))) :=
      Bal.quoted 0 ['k', '"'] _ hk h1
    exact h0
  exact ⟨c2_strings_do_not_perturb_depth.1 _ ['x'] ['z'] hq,
    c2_strings_do_not_perturb_depth.2 _ hb⟩

/-- C3: the claim says an input ending inside a quoted string must make
`jsonChunker.chunk` return a non-nil error that `x.Check` treats as fatal.
The code instead lets `slurpQuoted` return the raw `io.EOF`, which the
reader loop in `loader.mapStage` takes as a clean end-of-stream: on the
input `[\x7b"a` the chunk call returns `(nil, io.EOF)`, the loop breaks,
`end` succeeds, and the whole reader finishes with zero chunks — the
partial object is dropped and no error is ever raised. -/
theorem c3_unterminated_string_is_clean_eos :
    slurpQuoted ['{', '"'] ['a'] = .error .eof ∧
    jsonChunk ['{', '"', 'a'] = (none, some .eof, []) ∧
    jsonReader ['[', '{', '"', 'a'] = .ok [] := by
  refine ⟨by simp [slurpQuoted], ?_, ?_⟩
  · simp [jsonChunk, slurpSpace, goIsSpace, scanJson_quote_err, slurpQuoted]
  · have h1 : jsonBegin ['[', '{', '"', 'a'] = .ok ['{', '"', 'a'] := by
      simp [jsonBegin, slurpSpace, goIsSpace]
    have h2 : jsonChunk ['{', '"', 'a'] = (none, some .eof, []) := by
      simp [jsonChunk, slurpSpace, goIsSpace, scanJson_quote_err, slurpQuoted]
    have h3 := jsonDrive_eof [] h2
    simp [jsonReader, h1, h3, pushChunk, jsonEnd, slurpSpace]

/-- C4: an array `'[' object stray object ']'` whose stray rune `c` (not
whitespace, not `','`, not `']'`) sits between two complete objects: the
chunk call that scanned the first object pushes `c` back unconsumed and
still returns that object with a nil error, and the next chunk call fails —
with the "expected json map start" error for any stray but `'\x7b'`, and
with "malformed json" for a stray `'\x7b'` (which drags the scan past the
array end).  The drive loop therefore delivers the first element and then
aborts; the stray is never silently skipped. -/
theorem c4_stray_token_fails_next_call (t1 t2 : List Char) (c : Char)
    (hb1 : Bal 1 t1) (hb2 : Bal 1 t2) (hsp : goIsSpace c = false)
    (hcomma : c ≠ ',') (hclose : c ≠ ']') :
    jsonChunk ('{' :: (t1 ++ c :: '{' :: (t2 ++ [']']))) =
      (some ('{' :: t1), none, c :: '{' :: (t2 ++ [']'])) ∧
    jsonChunk (c :: '{' :: (t2 ++ [']'])) =
      (none, some (if c = '{' then GoErr.malformedJson else .mapStart c),
        if c = '{' then [] else '{' :: (t2 ++ [']'])) ∧
    jsonDrive ('{' :: (t1 ++ c :: '{' :: (t2 ++ [']']))) [] =
      (['{' :: t1], some (if c = '{' then GoErr.malformedJson else .mapStart c),
        if c = '{' then [] else '{' :: (t2 ++ [']'])) := by
  have hfirst : jsonChunk ('{' :: (t1 ++ c :: '{' :: (t2 ++ [']']))) =
      (some ('{' :: t1), none, c :: '{' :: (t2 ++ [']'])) := by
    have h := jsonChunk_obj_sep hb1 c ('{' :: (t2 ++ [']'])) hsp
    rw [if_neg hclose, if_neg hcomma] at h
    exact h
  have hsecond : jsonChunk (c :: '{' :: (t2 ++ [']'])) =
      (none, some (if c = '{' then GoErr.malformedJson else .mapStart c),
        if c = '{' then [] else '{' :: (t2 ++ [']'])) := by
    by_cases hbrace : c = '{'
    · subst hbrace
      rw [if_pos rfl, if_pos rfl]
      have h1 : slurpSpace ('{' :: '{' :: (t2 ++ [']'])) =
          .ok ('{' :: '{' :: (t2 ++ [']'])) := slurpSpace_not_space (by decide)
      have hscan : scanJson ['{'] 1 ('{' :: (t2 ++ [']'])) = .error .malformedJson := by
        rw [scanJson_open (by decide)]
        have hshift := scanJson_bal hb2 1 (['{'] ++ ['{']) [']']
        rw [hshift]
        rw [scanJson_other (by decide) (by decide) (by decide) (by decide)]
        rw [scanJson_nil (by decide)]
      simp only [jsonChunk, h1, hscan, if_true]
    · rw [if_neg hbrace, if_neg hbrace]
      have h1 : slurpSpace (c :: '{' :: (t2 ++ [']'])) =
          .ok (c :: '{' :: (t2 ++ [']'])) := slurpSpace_not_space hsp
      simp only [jsonChunk, h1, hbrace, if_false]
  refine ⟨hfirst, hsecond, ?_⟩
  rw [jsonDrive_none [] hfirst]
  rw [jsonDrive_fatal _ hsecond (by split <;> simp)]
  rfl

/-- C4 witness at the spec's shape `[\x7b...\x7d ; \x7b...\x7d]` with the
stray rune `;`. -/
theorem c4_stray_token_fails_next_call_witness :
    jsonChunk ('{' :: (['a', '}'] ++ ';' :: '{' :: (['b', '}'] ++ [']']))) =
      (some ('{' :: ['a', '}']), none, ';' :: '{' :: (['b', '}'] ++ [']'])) ∧
    jsonChunk (';' :: '{' :: (['b', '}'] ++ [']'])) =
      (none, some (if ';' = '{' then GoErr.malformedJson else .mapStart ';'),
        if ';' = '{' then [] else '{' :: (['b', '}'] ++ [']'])) ∧
    jsonDrive ('{' :: (['a', '}'] ++ ';' :: '{' :: (['b', '}'] ++ [']']))) [] =
      (['{' :: ['a', '}']],
        some (if ';' = '{' then GoErr.malformedJson else .mapStart ';'),
        if ';' = '{' then [] else '{' :: (['b', '}'] ++ [']'])) := by
  have hb1 : Bal 1 ['a', '}'] :=
    Bal.other 0 'a' _ (by decide) (by decide) (by decide)
      (Bal.closeBrace 0 [] Bal.done)
  have hb2 : Bal 1 ['b', '}'] :=
    Bal.other 0 'b' _ (by decide) (by decide) (by decide)
      (Bal.closeBrace 0 [] Bal.done)
  exact c4_stray_token_fails_next_call ['a', '}'] ['b', '}'] ';' hb1 hb2
    (by decide) (by decide) (by decide)

/-- C9: the empty top-level array `[]` is rejected, not read as an empty
input: `begin` consumes the `'['`, then the first chunk call meets `']'`
where an object must start and fails with the "expected json map start"
error, which the reader loop surfaces as fatal instead of a clean
end-of-stream with zero chunks. -/
theorem c9_empty_array_rejected :
    jsonBegin ['[', ']'] = .ok [']'] ∧
    jsonChunk [']'] = (none, some (GoErr.mapStart ']'), []) ∧
    jsonReader ['[', ']'] = .error (GoErr.mapStart ']') := by
  have h1 : jsonBegin ['[', ']'] = .ok [']'] := by
    simp [jsonBegin, slurpSpace, goIsSpace]
  have h2 : jsonChunk [']'] = (none, some (GoErr.mapStart ']'), []) := by
    simp [jsonChunk, slurpSpace, goIsSpace]
  have h3 := jsonDrive_fatal [] h2 (by simp)
  refine ⟨h1, h2, ?_⟩
  simp [jsonReader, h1, h3, pushChunk]

/-- C10: an input that ends right after a complete element and its
separating comma (`'[' object ','` then end of stream) is accepted without
error: the call after the comma hits end-of-input while skipping
whitespace and returns the empty buffer with `io.EOF`, the reader loop
stops without queueing anything, and `end` succeeds — the missing `']'` is
never detected. -/
theorem c10_truncated_after_comma_accepted (t : List Char) (hb : Bal 1 t) :
    jsonChunk ([] : List Char) = (some [], some .eof, []) ∧
    jsonDrive ('{' :: (t ++ [','])) [] = (['{' :: t], none, []) ∧
    jsonEnd [] = .ok () ∧
    jsonReader ('[' :: '{' :: (t ++ [','])) = .ok ['{' :: t] := by
  have hempty : jsonChunk ([] : List Char) = (some [], some .eof, []) := by
    simp [jsonChunk, slurpSpace]
  have hfirst : jsonChunk ('{' :: (t ++ [','])) = (some ('{' :: t), none, []) := by
    have h := jsonChunk_obj_sep hb ',' [] (by decide)
    simpa using h
  have hdrive : jsonDrive ('{' :: (t ++ [','])) [] = (['{' :: t], none, []) := by
    rw [jsonDrive_none [] hfirst]
    rw [jsonDrive_eof _ hempty]
    rfl
  have hend : jsonEnd [] = .ok () := by simp [jsonEnd, slurpSpace]
  refine ⟨hempty, hdrive, hend, ?_⟩
  have h1 : jsonBegin ('[' :: '{' :: (t ++ [','])) = .ok ('{' :: (t ++ [','])) := by
    simp [jsonBegin, slurpSpace, goIsSpace]
  simp [jsonReader, h1, hdrive, hend]

/-- C10 witness at the input `[\x7b\x7d,` (one empty object, a comma, end
of stream). -/
theorem c10_truncated_after_comma_accepted_witness :
    jsonChunk ([] : List Char) = (some [], some .eof, []) ∧
    jsonDrive ('{' :: (['}'] ++ [','])) [] = (['{' :: ['}']], none, []) ∧
    jsonEnd [] = .ok () ∧
    jsonReader ('[' :: '{' :: (['}'] ++ [','])) = .ok ['{' :: ['}']] :=
  c10_truncated_after_comma_accepted ['}'] (Bal.closeBrace 0 [] Bal.done)

/-- `bufio.Reader.ReadSlice('\n')` over a stream, with buffer capacity `B`
bytes: returns the bytes read (up to and including the newline), the error
(`none` when the newline was found, `io.EOF` when the stream ended first,
`bufio.ErrBufferFull` when `B` bytes were buffered without a newline), and
the remaining stream. -/
def readSlice (B : Nat) (s : List Char) : List Char × Option GoErr × List Char :=
  match B, s with
  | 0, s => ([], some .bufferFull, s)
  | _ + 1, [] => ([], some .eof, [])
  | B + 1, c :: rest =>
    if c = '\n' then ([c], none, rest)
    else
      match readSlice B rest with
      | (t, e, r) => (c :: t, e, r)

/-- `bufio.Reader.ReadString('\n')`: like `readSlice` but unbounded — reads
until the newline or the end of the stream. -/
def readString (s : List Char) : List Char × Option GoErr × List Char :=
  match s with
  | [] => ([], some .eof, [])
  | c :: rest =>
    if c = '\n' then ([c], none, rest)
    else
      match readString rest with
      | (t, e, r) => (c :: t, e, r)

/-- The line loop of `rdfChunker.chunk` (loader.go lines 177-207) with `n`
line-count iterations left out of the `1e5` budget: `ReadSlice` a line; on
`io.EOF` append and return with the EOF signal; on `ErrBufferFull` recover
the rest of the line with an unbounded `ReadString` (returning on its EOF)
and continue; otherwise append the line and loop.  Read errors other than
`io.EOF`/`ErrBufferFull` cannot arise in the byte-stream model; the
corresponding `return nil, err` arms are kept as (unreachable) catch-alls
mirroring Go's nil buffer as an empty one. -/
def rdfChunkAux (B : Nat) : Nat → List Char → List Char →
    List Char × Option GoErr × List Char
  | 0, batch, s => (batch, none, s)
  | n + 1, batch, s =>
    match readSlice B s with
    | (slc, some .eof, s1) => (batch ++ slc, some .eof, s1)
    | (slc, some .bufferFull, s1) =>
      match readString s1 with
      | (str, some .eof, s2) => (batch ++ slc ++ str, some .eof, s2)
      | (str, none, s2) => rdfChunkAux B n (batch ++ slc ++ str) s2
      | (_, some e, s2) => ([], some e, s2)
    | (slc, none, s1) => rdfChunkAux B n (batch ++ slc) s1
    | (_, some e, s1) => ([], some e, s1)

/-- loader.go `rdfChunker.chunk`: one call accumulates up to `1e5` whole
lines from a buffered reader with capacity `B`. -/
def rdfChunk (B : Nat) (s : List Char) : List Char × Option GoErr × List Char :=
  rdfChunkAux B 100000 [] s

theorem readSlice_split {B : Nat} {s t r : List Char} {e : Option GoErr}
    (h : readSlice B s = (t, e, r)) : t ++ r = s := by
  induction B generalizing s t e r with
  | zero =>
    unfold readSlice at h
    cases h
    rfl
  | succ B ih =>
    cases s with
    | nil =>
      unfold readSlice at h
      cases h
      rfl
    | cons c rest =>
      unfold readSlice at h
      by_cases hc : c = '\n'
      · rw [if_pos hc] at h
        cases h
        rfl
      · rw [if_neg hc] at h
        cases hr : readSlice B rest with
        | mk t1 p =>
          obtain ⟨e1, r1⟩ := p
          rw [hr] at h
          simp only at h
          cases h
          have := ih hr
          simp [← this]

theorem readString_split {s t r : List Char} {e : Option GoErr}
    (h : readString s = (t, e, r)) : t ++ r = s := by
  induction s generalizing t e r with
  | nil =>
    unfold readString at h
    cases h
    rfl
  | cons c rest ih =>
    unfold readString at h
    by_cases hc : c = '\n'
    · rw [if_pos hc] at h
      cases h
      rfl
    · rw [if_neg hc] at h
      cases hr : readString rest with
      | mk t1 p =>
        obtain ⟨e1, r1⟩ := p
        rw [hr] at h
        simp only at h
        cases h
        have := ih hr
        simp [← this]

/-- The three outcomes of `readSlice`, with what each implies: a found line
ends in exactly one newline; a buffer-full slice has no newline; an EOF
slice has no newline and exhausts the stream. -/
theorem readSlice_cases {B : Nat} {s t r : List Char} {e : Option GoErr}
    (h : readSlice B s = (t, e, r)) :
    (e = none ∧ t.count '\n' = 1 ∧ t.getLast? = some '\n') ∨
    (e = some .bufferFull ∧ t.count '\n' = 0) ∨
    (e = some .eof ∧ t.count '\n' = 0 ∧ r = []) := by
  induction B generalizing s t e r with
  | zero =>
    unfold readSlice at h
    cases h
    right; left
    exact ⟨rfl, rfl⟩
  | succ B ih =>
    cases s with
    | nil =>
      unfold readSlice at h
      cases h
      right; right
      exact ⟨rfl, rfl, rfl⟩
    | cons c rest =>
      unfold readSlice at h
      by_cases hc : c = '\n'
      · rw [if_pos hc] at h
        cases h
        left
        subst hc
        refine ⟨rfl, by simp, rfl⟩
      · rw [if_neg hc] at h
        cases hr : readSlice B rest with
        | mk t1 p =>
          obtain ⟨e1, r1⟩ := p
          rw [hr] at h
          simp only at h
          cases h
          rcases ih hr with ⟨he, hcount, hlast⟩ | ⟨he, hcount⟩ | ⟨he, hcount, hr1⟩
          · left
            refine ⟨he, by simp [List.count_cons, hcount, Ne.symm hc], ?_⟩
            cases t1 with
            | nil => simp at hlast
            | cons a l => simpa using hlast
          · right; left
            exact ⟨he, by simp [List.count_cons, hcount, Ne.symm hc]⟩
          · right; right
            exact ⟨he, by simp [List.count_cons, hcount, Ne.symm hc], hr1⟩

/-- The two outcomes of `readString`: a found line ends in exactly one
newline, or EOF with no newline and an exhausted stream. -/
theorem readString_cases {s t r : List Char} {e : Option GoErr}
    (h : readString s = (t, e, r)) :
    (e = none ∧ t.count '\n' = 1 ∧ t.getLast? = some '\n') ∨
    (e = some .eof ∧ t.count '\n' = 0 ∧ r = []) := by
  induction s generalizing t e r with
  | nil =>
    unfold readString at h
    cases h
    right
    exact ⟨rfl, rfl, rfl⟩
  | cons c rest ih =>
    unfold readString at h
    by_cases hc : c = '\n'
    · rw [if_pos hc] at h
      cases h
      left
      subst hc
      exact ⟨rfl, by simp, rfl⟩
    · rw [if_neg hc] at h
      cases hr : readString rest with
      | mk t1 p =>
        obtain ⟨e1, r1⟩ := p
        rw [hr] at h
        simp only at h
        cases h
        rcases ih hr with ⟨he, hcount, hlast⟩ | ⟨he, hcount, hr1⟩
        · left
          refine ⟨he, by simp [List.count_cons, hcount, Ne.symm hc], ?_⟩
          cases t1 with
          | nil => simp at hlast
          | cons a l => simpa using hlast
        · right
          exact ⟨he, by simp [List.count_cons, hcount, Ne.symm hc], hr1⟩

theorem rdfChunkAux_zero (B : Nat) (batch s : List Char) :
    rdfChunkAux B 0 batch s = (batch, none, s) := rfl

theorem rdfChunkAux_eof {B : Nat} {s slc s1 : List Char} (n : Nat)
    (batch : List Char) (h : readSlice B s = (slc, some .eof, s1)) :
    rdfChunkAux B (n + 1) batch s = (batch ++ slc, some .eof, s1) := by
  simp only [rdfChunkAux, h]

theorem rdfChunkAux_line {B : Nat} {s slc s1 : List Char} (n : Nat)
    (batch : List Char) (h : readSlice B s = (slc, none, s1)) :
    rdfChunkAux B (n + 1) batch s = rdfChunkAux B n (batch ++ slc) s1 := by
  simp only [rdfChunkAux, h]

theorem rdfChunkAux_full_eof {B : Nat} {s slc s1 str s2 : List Char} (n : Nat)
    (batch : List Char) (h : readSlice B s = (slc, some .bufferFull, s1))
    (h2 : readString s1 = (str, some .eof, s2)) :
    rdfChunkAux B (n + 1) batch s = (batch ++ slc ++ str, some .eof, s2) := by
  simp only [rdfChunkAux, h, h2]

theorem rdfChunkAux_full_line {B : Nat} {s slc s1 str s2 : List Char} (n : Nat)
    (batch : List Char) (h : readSlice B s = (slc, some .bufferFull, s1))
    (h2 : readString s1 = (str, none, s2)) :
    rdfChunkAux B (n + 1) batch s = rdfChunkAux B n (batch ++ slc ++ str) s2 := by
  simp only [rdfChunkAux, h, h2]

/-- Concatenation invariant of the RDF line loop: the built batch followed
by the unread remainder is always the batch and stream it started from. -/
theorem rdfChunkAux_split {B : Nat} : ∀ (n : Nat) (batch s : List Char),
    (rdfChunkAux B n batch s).1 ++ (rdfChunkAux B n batch s).2.2 = batch ++ s := by
  intro n
  induction n with
  | zero => intro batch s; rfl
  | succ n ih =>
    intro batch s
    rcases hrs : readSlice B s with ⟨slc, e1, s1⟩
    rcases readSlice_cases hrs with ⟨rfl, hcnt, hlast⟩ | ⟨rfl, hcnt⟩ | ⟨rfl, hcnt, rfl⟩
    · rw [rdfChunkAux_line n batch hrs, ih]
      simp [← readSlice_split hrs]
    · rcases hstr : readString s1 with ⟨str, e2, s2⟩
      rcases readString_cases hstr with ⟨rfl, hcnt2, hlast2⟩ | ⟨rfl, hcnt2, rfl⟩
      · rw [rdfChunkAux_full_line n batch hrs hstr, ih]
        simp [← readSlice_split hrs, ← readString_split hstr]
      · rw [rdfChunkAux_full_eof n batch hrs hstr]
        simp [← readSlice_split hrs, ← readString_split hstr]
    · rw [rdfChunkAux_eof n batch hrs]
      simp [← readSlice_split hrs]

/-- The RDF line loop ends either with a nil error (line budget reached) or
with `io.EOF` and an exhausted stream; no other error can arise from a pure
byte stream. -/
theorem rdfChunkAux_err {B : Nat} : ∀ (n : Nat) (batch s : List Char),
    (rdfChunkAux B n batch s).2.1 = none ∨
    ((rdfChunkAux B n batch s).2.1 = some .eof ∧
      (rdfChunkAux B n batch s).2.2 = []) := by
  intro n
  induction n with
  | zero => intro batch s; left; rfl
  | succ n ih =>
    intro batch s
    rcases hrs : readSlice B s with ⟨slc, e1, s1⟩
    rcases readSlice_cases hrs with ⟨rfl, hcnt, hlast⟩ | ⟨rfl, hcnt⟩ | ⟨rfl, hcnt, rfl⟩
    · rw [rdfChunkAux_line n batch hrs]
      exact ih _ _
    · rcases hstr : readString s1 with ⟨str, e2, s2⟩
      rcases readString_cases hstr with ⟨rfl, hcnt2, hlast2⟩ | ⟨rfl, hcnt2, rfl⟩
      · rw [rdfChunkAux_full_line n batch hrs hstr]
        exact ih _ _
      · rw [rdfChunkAux_full_eof n batch hrs hstr]
        right
        exact ⟨rfl, rfl⟩
    · rw [rdfChunkAux_eof n batch hrs]
      right
      exact ⟨rfl, rfl⟩

/-- When the RDF line loop returns with a nil error it has read exactly its
whole line budget: one newline per iteration. -/
theorem rdfChunkAux_count_none {B : Nat} : ∀ (n : Nat) (batch s : List Char),
    (rdfChunkAux B n batch s).2.1 = none →
    (rdfChunkAux B n batch s).1.count '\n' = batch.count '\n' + n := by
  intro n
  induction n with
  | zero => intro batch s _; rfl
  | succ n ih =>
    intro batch s he
    rcases hrs : readSlice B s with ⟨slc, e1, s1⟩
    rcases readSlice_cases hrs with ⟨rfl, hcnt, hlast⟩ | ⟨rfl, hcnt⟩ | ⟨rfl, hcnt, rfl⟩
    · rw [rdfChunkAux_line n batch hrs] at he ⊢
      rw [ih _ _ he]
      have h2 : (batch ++ slc).count '\n' = batch.count '\n' + 1 := by
        simp [List.count_append, hcnt]
      omega
    · rcases hstr : readString s1 with ⟨str, e2, s2⟩
      rcases readString_cases hstr with ⟨rfl, hcnt2, hlast2⟩ | ⟨rfl, hcnt2, rfl⟩
      · rw [rdfChunkAux_full_line n batch hrs hstr] at he ⊢
        rw [ih _ _ he]
        have h2 : (batch ++ slc ++ str).count '\n' = batch.count '\n' + 1 := by
          simp [List.count_append, hcnt, hcnt2]
        omega
      · rw [rdfChunkAux_full_eof n batch hrs hstr] at he
        cases he
    · rw [rdfChunkAux_eof n batch hrs] at he
      cases he

/-- When the RDF line loop returns early with `io.EOF` it has read at most
its line budget. -/
theorem rdfChunkAux_count_le {B : Nat} : ∀ (n : Nat) (batch s : List Char),
    (rdfChunkAux B n batch s).1.count '\n' ≤ batch.count '\n' + n := by
  intro n
  induction n with
  | zero => intro batch s; exact le_rfl
  | succ n ih =>
    intro batch s
    rcases hrs : readSlice B s with ⟨slc, e1, s1⟩
    rcases readSlice_cases hrs with ⟨rfl, hcnt, hlast⟩ | ⟨rfl, hcnt⟩ | ⟨rfl, hcnt, rfl⟩
    · rw [rdfChunkAux_line n batch hrs]
      have := ih (batch ++ slc) s1
      simp [hcnt] at this
      omega
    · rcases hstr : readString s1 with ⟨str, e2, s2⟩
      rcases readString_cases hstr with ⟨rfl, hcnt2, hlast2⟩ | ⟨rfl, hcnt2, rfl⟩
      · rw [rdfChunkAux_full_line n batch hrs hstr]
        have h1 := ih (batch ++ slc ++ str) s2
        have h2 : (batch ++ slc ++ str).count '\n' = batch.count '\n' + 1 := by
          simp [List.count_append, hcnt, hcnt2]
        omega
      · rw [rdfChunkAux_full_eof n batch hrs hstr]
        have h2 : (batch ++ slc ++ str).count '\n' = batch.count '\n' := by
          simp [List.count_append, hcnt, hcnt2]
        show (batch ++ slc ++ str).count '\n' ≤ batch.count '\n' + (n + 1)
        omega
    · rw [rdfChunkAux_eof n batch hrs]
      have h2 : (batch ++ slc).count '\n' = batch.count '\n' := by
        simp [List.count_append, hcnt]
      show (batch ++ slc).count '\n' ≤ batch.count '\n' + (n + 1)
      omega

/-- A batch returned with a nil error either is the untouched starting
batch (zero budget) or ends at a newline — a chunk boundary never falls
inside a line. -/
theorem rdfChunkAux_last {B : Nat} : ∀ (n : Nat) (batch s : List Char),
    (rdfChunkAux B n batch s).2.1 = none →
    ((rdfChunkAux B n batch s).1 = batch ∧ n = 0) ∨
    (rdfChunkAux B n batch s).1.getLast? = some '\n' := by
  intro n
  induction n with
  | zero => intro batch s _; left; exact ⟨rfl, rfl⟩
  | succ n ih =>
    intro batch s he
    rcases hrs : readSlice B s with ⟨slc, e1, s1⟩
    rcases readSlice_cases hrs with ⟨rfl, hcnt, hlast⟩ | ⟨rfl, hcnt⟩ | ⟨rfl, hcnt, rfl⟩
    · rw [rdfChunkAux_line n batch hrs] at he ⊢
      rcases ih _ _ he with ⟨hb, hn⟩ | hlast2
      · right
        rw [hb]
        rw [List.getLast?_append, hlast]
        rfl
      · right
        exact hlast2
    · rcases hstr : readString s1 with ⟨str, e2, s2⟩
      rcases readString_cases hstr with ⟨rfl, hcnt2, hlast2⟩ | ⟨rfl, hcnt2, rfl⟩
      · rw [rdfChunkAux_full_line n batch hrs hstr] at he ⊢
        rcases ih _ _ he with ⟨hb, hn⟩ | hlast3
        · right
          rw [hb]
          rw [List.getLast?_append, hlast2]
          rfl
        · right
          exact hlast3
      · rw [rdfChunkAux_full_eof n batch hrs hstr] at he
        cases he
    · rw [rdfChunkAux_eof n batch hrs] at he
      cases he

/-- Each nil-error iteration consumes at least one byte, so a full budget
of `n` lines consumes at least `n` bytes. -/
theorem rdfChunkAux_progress {B : Nat} : ∀ (n : Nat) (batch s : List Char),
    (rdfChunkAux B n batch s).2.1 = none →
    (rdfChunkAux B n batch s).2.2.length + n ≤ s.length := by
  intro n
  induction n with
  | zero => intro batch s _; rw [rdfChunkAux_zero]; simp
  | succ n ih =>
    intro batch s he
    rcases hrs : readSlice B s with ⟨slc, e1, s1⟩
    have hsplit := readSlice_split hrs
    rcases readSlice_cases hrs with ⟨rfl, hcnt, hlast⟩ | ⟨rfl, hcnt⟩ | ⟨rfl, hcnt, rfl⟩
    · rw [rdfChunkAux_line n batch hrs] at he ⊢
      have h1 := ih _ _ he
      have hslc : slc ≠ [] := by
        intro hnil
        rw [hnil] at hlast
        cases hlast
      have : 1 ≤ slc.length := by
        cases slc with
        | nil => exact absurd rfl hslc
        | cons a l => simp
      have hlen : slc.length + s1.length = s.length := by
        rw [← hsplit]
        simp
      omega
    · rcases hstr : readString s1 with ⟨str, e2, s2⟩
      have hsplit2 := readString_split hstr
      rcases readString_cases hstr with ⟨rfl, hcnt2, hlast2⟩ | ⟨rfl, hcnt2, rfl⟩
      · rw [rdfChunkAux_full_line n batch hrs hstr] at he ⊢
        have h1 := ih _ _ he
        have hstr2 : str ≠ [] := by
          intro hnil
          rw [hnil] at hlast2
          cases hlast2
        have : 1 ≤ str.length := by
          cases str with
          | nil => exact absurd rfl hstr2
          | cons a l => simp
        have hlen : slc.length + s1.length = s.length := by
          rw [← hsplit]
          simp
        have hlen2 : str.length + s2.length = s1.length := by
          rw [← hsplit2]
          simp
        omega
      · rw [rdfChunkAux_full_eof n batch hrs hstr] at he
        cases he
    · rw [rdfChunkAux_eof n batch hrs] at he
      cases he

/-- The reader-goroutine loop of `loader.mapStage` (lines 434-444) driving
an RDF chunker: push every non-empty batch to the queue, stop on `io.EOF`,
abort (`x.Check`) on any other error.  Returns the queued chunks and the
fatal error if any (`none` means the loop left via the clean break). -/
def rdfDrive (B : Nat) (s : List Char) (acc : List (List Char)) :
    List (List Char) × Option GoErr :=
  match hc : rdfChunk B s with
  | (batch, none, rest) => rdfDrive B rest (pushChunk acc (some batch))
  | (batch, some .eof, _) => (pushChunk acc (some batch), none)
  | (batch, some e, _) => (pushChunk acc (some batch), some e)
termination_by s.length
decreasing_by
  have hc2 : rdfChunkAux B 100000 [] s = (batch, none, rest) := hc
  have h1 : (rdfChunkAux B 100000 [] s).2.1 = none := by rw [hc2]
  have hp := @rdfChunkAux_progress B 100000 [] s h1
  rw [hc2] at hp
  simp only at hp
  omega

theorem rdfDrive_none {B : Nat} {s batch rest : List Char}
    (acc : List (List Char)) (hc : rdfChunk B s = (batch, none, rest)) :
    rdfDrive B s acc = rdfDrive B rest (pushChunk acc (some batch)) := by
  conv_lhs => rw [rdfDrive]
  split
  · rename_i batch' rest' heq
    rw [hc] at heq
    cases heq
    rfl
  · rename_i batch' rest' heq
    rw [hc] at heq
    cases heq
  · rename_i batch' e rest' hne heq
    rw [hc] at heq
    cases heq

theorem rdfDrive_eof {B : Nat} {s batch rest : List Char}
    (acc : List (List Char)) (hc : rdfChunk B s = (batch, some .eof, rest)) :
    rdfDrive B s acc = (pushChunk acc (some batch), none) := by
  conv_lhs => rw [rdfDrive]
  split
  · rename_i batch' rest' heq
    rw [hc] at heq
    cases heq
  · rename_i batch' rest' heq
    rw [hc] at heq
    cases heq
    rfl
  · rename_i batch' e rest' hne heq
    rw [hc] at heq
    cases heq
    exact ((hne rfl).elim : _)

theorem pushChunk_flatten (acc : List (List Char)) (b : List Char) :
    (pushChunk acc (some b)).flatten = acc.flatten ++ b := by
  by_cases hb : b = []
  · simp [pushChunk, hb]
  · simp [pushChunk, hb]

/-- Whether a chunk ends at a newline — the "no boundary inside a line"
test. -/
def endsNewline (c : List Char) : Bool := c.getLast? == some '\n'

/-- Concatenating everything the RDF reader loop queued reproduces the
stream it consumed, and the loop never ends with a fatal error. -/
theorem rdfDrive_flatten {B : Nat} : ∀ (n : Nat) (s : List Char)
    (acc : List (List Char)), s.length = n →
    ((rdfDrive B s acc).1).flatten = acc.flatten ++ s ∧
    (rdfDrive B s acc).2 = none := by
  intro n
  induction n using Nat.strong_induction_on with
  | _ n ih =>
    intro s acc hn
    rcases hc : rdfChunk B s with ⟨batch, e, rest⟩
    have hc2 : rdfChunkAux B 100000 [] s = (batch, e, rest) := hc
    have hsplit : batch ++ rest = s := by
      have h := @rdfChunkAux_split B 100000 [] s
      rw [hc2] at h
      simpa using h
    rcases @rdfChunkAux_err B 100000 [] s with hnone | ⟨heof, hrest⟩
    · rw [hc2] at hnone
      simp only at hnone
      subst hnone
      have hprog := @rdfChunkAux_progress B 100000 [] s (by rw [hc2])
      rw [hc2] at hprog
      simp only at hprog
      rw [rdfDrive_none acc hc]
      have hr := ih rest.length (by omega) rest (pushChunk acc (some batch)) rfl
      refine ⟨?_, hr.2⟩
      rw [hr.1, pushChunk_flatten]
      rw [List.append_assoc, hsplit]
    · rw [hc2] at heof hrest
      simp only at heof hrest
      subst heof
      subst hrest
      rw [rdfDrive_eof acc hc]
      refine ⟨?_, rfl⟩
      rw [pushChunk_flatten]
      rw [show batch = s by simpa using hsplit]

/-- Every chunk the RDF reader loop queues, except possibly the last, ends
at a newline. -/
theorem rdfDrive_boundaries {B : Nat} : ∀ (n : Nat) (s : List Char)
    (acc : List (List Char)), s.length = n →
    (∀ c ∈ acc, endsNewline c = true) →
    ∀ c ∈ (rdfDrive B s acc).1.dropLast, endsNewline c = true := by
  intro n
  induction n using Nat.strong_induction_on with
  | _ n ih =>
    intro s acc hn hacc
    rcases hc : rdfChunk B s with ⟨batch, e, rest⟩
    have hc2 : rdfChunkAux B 100000 [] s = (batch, e, rest) := hc
    rcases @rdfChunkAux_err B 100000 [] s with hnone | ⟨heof, hrest⟩
    · rw [hc2] at hnone
      simp only at hnone
      subst hnone
      have hprog := @rdfChunkAux_progress B 100000 [] s (by rw [hc2])
      rw [hc2] at hprog
      simp only at hprog
      rw [rdfDrive_none acc hc]
      have hlast := @rdfChunkAux_last B 100000 [] s (by rw [hc2])
      rw [hc2] at hlast
      simp only at hlast
      rcases hlast with ⟨_, h0⟩ | hlast
      · cases h0
      · apply ih rest.length (by omega) rest _ rfl
        intro c hcmem
        simp only [pushChunk] at hcmem
        by_cases hb : batch = []
        · rw [if_pos hb] at hcmem
          exact hacc c hcmem
        · rw [if_neg hb] at hcmem
          rcases List.mem_append.mp hcmem with hmem | hmem
          · exact hacc c hmem
          · simp only [List.mem_singleton] at hmem
            subst hmem
            simp [endsNewline, hlast]
    · rw [hc2] at heof hrest
      simp only at heof hrest
      subst heof
      rw [rdfDrive_eof acc hc]
      intro c hcmem
      simp only [pushChunk] at hcmem
      by_cases hb : batch = []
      · rw [if_pos hb] at hcmem
        exact hacc c (List.dropLast_subset _ hcmem)
      · rw [if_neg hb] at hcmem
        rw [List.dropLast_concat] at hcmem
        exact hacc c hcmem

/-- C1: for every RDF input stream and every read-buffer capacity `B`,
concatenating the buffers the reader loop queues from successive
`rdfChunker.chunk` calls (in call order, the final partial buffer included)
reproduces the original byte stream exactly; no chunk boundary falls
strictly inside a line — every queued chunk except possibly the last ends
at a newline, even when a line is longer than the read buffer (the
`ErrBufferFull` / `ReadString` recovery path); and the loop always ends by
the clean `io.EOF` break. -/
theorem c1_rdf_concat_and_boundaries (B : Nat) (s : List Char) :
    ((rdfDrive B s []).1).flatten = s ∧
    ((rdfDrive B s []).1.dropLast.all endsNewline) = true ∧
    (rdfDrive B s []).2 = none := by
  have hf := @rdfDrive_flatten B s.length s [] rfl
  refine ⟨by simpa using hf.1, ?_, hf.2⟩
  rw [List.all_eq_true]
  exact @rdfDrive_boundaries B s.length s [] rfl (by intro c hc; cases hc)

/-- C8: every `rdfChunker.chunk` call stays within the `1e5`-line budget.
`rdfChunk` is the loop at exactly `1e5` iterations; a call that returns a
nil error has accumulated exactly its full budget of complete lines (and
so ends at a newline), a call that returns an error returns `io.EOF` with
the stream exhausted and at most `1e5` lines in the partial batch, and the
reader loop still queues that final partial batch whenever it is
non-empty. -/
theorem c8_rdf_chunk_line_budget :
    (∀ (B : Nat) (s : List Char), rdfChunk B s = rdfChunkAux B 100000 [] s) ∧
    (∀ (B n : Nat) (s b r : List Char), rdfChunkAux B n [] s = (b, none, r) →
      b.count '\n' = n ∧ (n ≠ 0 → b.getLast? = some '\n')) ∧
    (∀ (B : Nat) (s b r : List Char) (e : GoErr),
      rdfChunk B s = (b, some e, r) →
      e = .eof ∧ r = [] ∧ b.count '\n' ≤ 100000) ∧
    (∀ (B : Nat) (s b r : List Char) (acc : List (List Char)),
      rdfChunk B s = (b, some GoErr.eof, r) → b ≠ [] →
      (rdfDrive B s acc).1 = acc ++ [b]) := by
  refine ⟨fun B s => rfl, ?_, ?_, ?_⟩
  · intro B n s b r h
    have he : (rdfChunkAux B n [] s).2.1 = none := by rw [h]
    have hcount := @rdfChunkAux_count_none B n [] s he
    rw [h] at hcount
    simp only [List.count_nil] at hcount
    have hlast := @rdfChunkAux_last B n [] s he
    rw [h] at hlast
    simp only at hcount hlast
    refine ⟨by omega, ?_⟩
    intro hn
    rcases hlast with ⟨_, h0⟩ | hl
    · exact absurd h0 hn
    · exact hl
  · intro B s b r e h
    have hc2 : rdfChunkAux B 100000 [] s = (b, some e, r) := h
    rcases @rdfChunkAux_err B 100000 [] s with hnone | ⟨heof, hrest⟩
    · rw [hc2] at hnone
      cases hnone
    · rw [hc2] at heof hrest
      simp only at heof hrest
      cases heof
      have hcount := @rdfChunkAux_count_le B 100000 [] s
      rw [hc2] at hcount
      simp only [List.count_nil] at hcount
      exact ⟨rfl, hrest, by omega⟩
  · intro B s b r acc h hb
    rw [rdfDrive_eof acc h]
    simp [pushChunk, hb]

/-- C8 witness: with buffer capacity 4, the stream of two bare newlines is
two complete lines (`n = 2` budget hit exactly, nil error), while the
stream `x\n` is exhausted on the first full-budget call, returning the
partial batch with `io.EOF` and an empty remainder, and the reader loop
queues that batch. -/
theorem c8_rdf_chunk_line_budget_witness :
    rdfChunk 4 ['x', '\n'] = rdfChunkAux 4 100000 [] ['x', '\n'] ∧
    (rdfChunkAux 4 2 [] ['\n', '\n'] = (['\n', '\n'], none, []) ∧
      (['\n', '\n'] : List Char).count '\n' = 2 ∧
      (2 ≠ 0 → (['\n', '\n'] : List Char).getLast? = some '\n')) ∧
    (rdfChunk 4 ['x', '\n'] = (['x', '\n'], some GoErr.eof, []) ∧
      GoErr.eof = GoErr.eof ∧ ([] : List Char) = [] ∧
      (['x', '\n'] : List Char).count '\n' ≤ 100000) ∧
    ((['x', '\n'] : List Char) ≠ [] ∧
      (rdfDrive 4 ['x', '\n'] []).1 = [] ++ [['x', '\n']]) := by
  have haux : rdfChunkAux 4 2 [] ['\n', '\n'] = (['\n', '\n'], none, []) := by
    have h1 : readSlice 4 ['\n', '\n'] = (['\n'], none, ['\n']) := rfl
    have h2 : readSlice 4 ['\n'] = (['\n'], none, []) := rfl
    rw [rdfChunkAux_line 1 [] h1]
    rw [rdfChunkAux_line 0 ([] ++ ['\n']) h2]
    rfl
  have heof : rdfChunk 4 ['x', '\n'] = (['x', '\n'], some GoErr.eof, []) := by
    have h1 : readSlice 4 ['x', '\n'] = (['x', '\n'], none, []) := rfl
    have h2 : readSlice 4 ([] : List Char) = ([], some GoErr.eof, []) := rfl
    show rdfChunkAux 4 100000 [] ['x', '\n'] = _
    rw [show (100000 : Nat) = 99999 + 1 from rfl, rdfChunkAux_line 99999 [] h1]
    rw [show (99999 : Nat) = 99998 + 1 from rfl,
      rdfChunkAux_eof 99998 ([] ++ ['x', '\n']) h2]
    rfl
  have hcnt := (c8_rdf_chunk_line_budget.2.1 4 2 ['\n', '\n'] ['\n', '\n'] [] haux)
  have herr := c8_rdf_chunk_line_budget.2.2.1 4 ['x', '\n'] ['x', '\n'] []
    GoErr.eof heof
  have hdrive := c8_rdf_chunk_line_budget.2.2.2 4 ['x', '\n'] ['x', '\n'] [] []
    heof (by decide)
  exact ⟨c8_rdf_chunk_line_budget.1 4 ['x', '\n'], ⟨haux, hcnt.1, hcnt.2⟩,
    ⟨heof, rfl, rfl, herr.2.2⟩, ⟨by decide, hdrive⟩⟩

/-- One observable action of `getWriteTimestamp`: a `Timestamps` RPC issued
under a `context.WithTimeout` of the given number of seconds, or a
`time.Sleep` of the given number of seconds. -/
inductive ZeroAct where
  | call (timeoutSec : Nat)
  | sleep (sec : Nat)
deriving DecidableEq

/-- loader.go `getWriteTimestamp`: loop forever — call
`client.Timestamps(ctx, &pb.Num\x7bVal: 1\x7d)` under a one-second
per-attempt timeout; on success return `ts.GetStartId()`, on error print,
sleep one second and retry.  The remote authority is modelled as an oracle
from the attempt index to that attempt's outcome; `fuel` bounds how many
attempts the model unrolls (`none` means the loop is still retrying after
`fuel` attempts — the Go loop has no other exit).  The trace accumulates
the actions performed, in order. -/
def getWriteTimestamp (oracle : Nat → Except Unit Nat) (fuel attempt : Nat)
    (tr : List ZeroAct) : Option (Nat × List ZeroAct) :=
  if fuel = 0 then none
  else
    match oracle attempt with
    | .ok startId => some (startId, tr ++ [ZeroAct.call 1])
    | .error _ =>
      getWriteTimestamp oracle (fuel - 1) (attempt + 1)
        (tr ++ [ZeroAct.call 1, ZeroAct.sleep 1])

/-- The only field of loader.go's `state` that the timestamp claims are
about: `writeTs`, set once in the `newLoader` struct literal from
`getWriteTimestamp(zero)` and read-only afterwards. -/
structure LoaderState where
  writeTs : Nat

/-- The `newLoader` assignment `writeTs: getWriteTimestamp(zero)`: the
state is built exactly once, its `writeTs` taken from the bootstrap's
return value (no other assignment to the field exists in loader.go). -/
def newLoaderState (oracle : Nat → Except Unit Nat) (fuel : Nat) :
    Option LoaderState :=
  match getWriteTimestamp oracle fuel 0 [] with
  | some (ts, _) => some ⟨ts⟩
  | none => none

theorem getWriteTimestamp_ok {oracle : Nat → Except Unit Nat} {attempt v : Nat}
    (fuel : Nat) (tr : List ZeroAct) (h : oracle attempt = .ok v) :
    getWriteTimestamp oracle (fuel + 1) attempt tr =
      some (v, tr ++ [ZeroAct.call 1]) := by
  conv_lhs => rw [getWriteTimestamp]
  rw [if_neg (by omega), h]

theorem getWriteTimestamp_retry {oracle : Nat → Except Unit Nat} {attempt : Nat}
    (fuel : Nat) (tr : List ZeroAct) (h : oracle attempt = .error ()) :
    getWriteTimestamp oracle (fuel + 1) attempt tr =
      getWriteTimestamp oracle fuel (attempt + 1)
        (tr ++ [ZeroAct.call 1, ZeroAct.sleep 1]) := by
  conv_lhs => rw [getWriteTimestamp]
  rw [if_neg (by omega), h]
  simp only [Nat.add_sub_cancel]

/-- A successful bootstrap result always is the value of some successful
oracle attempt: the loop never surfaces a failure as its result. -/
theorem getWriteTimestamp_from_oracle {oracle : Nat → Except Unit Nat} :
    ∀ (fuel attempt : Nat) (tr : List ZeroAct) (ts : Nat) (tr2 : List ZeroAct),
    getWriteTimestamp oracle fuel attempt tr = some (ts, tr2) →
    ∃ k, oracle k = .ok ts := by
  intro fuel
  induction fuel with
  | zero =>
    intro attempt tr ts tr2 h
    unfold getWriteTimestamp at h
    rw [if_pos rfl] at h
    cases h
  | succ fuel ih =>
    intro attempt tr ts tr2 h
    cases ho : oracle attempt with
    | ok v =>
      rw [getWriteTimestamp_ok fuel tr ho] at h
      cases h
      exact ⟨attempt, ho⟩
    | error u =>
      cases u
      rw [getWriteTimestamp_retry fuel tr ho] at h
      exact ih _ _ _ _ h

/-- C6: the write timestamp is fetched exactly once, before any stage, by a
loop that retries indefinitely with a one-second per-attempt timeout and a
one-second sleep between attempts, never surfacing the failure.  Against
an authority that fails twice and then succeeds, the loop performs exactly
three attempts (trace: call, sleep, call, sleep, call, each with the
one-second constant) and returns the start value of the third; any
successful return is the value of a successful attempt; and `newLoader`
sets `writeTs` to exactly that value at construction (the model has no
other writer of the field). -/
theorem c6_timestamp_bootstrap (oracle : Nat → Except Unit Nat) (v : Nat)
    (h0 : oracle 0 = .error ()) (h1 : oracle 1 = .error ())
    (h2 : oracle 2 = .ok v) :
    (∀ fuel : Nat, 3 ≤ fuel → getWriteTimestamp oracle fuel 0 [] =
      some (v, [ZeroAct.call 1, ZeroAct.sleep 1, ZeroAct.call 1,
        ZeroAct.sleep 1, ZeroAct.call 1])) ∧
    (∀ (fuel attempt : Nat) (tr : List ZeroAct) (ts : Nat) (tr2 : List ZeroAct),
      getWriteTimestamp oracle fuel attempt tr = some (ts, tr2) →
      ∃ k, oracle k = .ok ts) ∧
    (∀ fuel : Nat, 3 ≤ fuel →
      newLoaderState oracle fuel = some ⟨v⟩) := by
    refine ⟨?_, fun fuel attempt tr ts tr2 h => getWriteTimestamp_from_oracle fuel attempt tr ts tr2 h, ?_⟩
    · intro fuel hfuel
      obtain ⟨f3, rfl⟩ : ∃ f3, fuel = f3 + 3 := ⟨fuel - 3, by omega⟩
      rw [show f3 + 3 = (f3 + 2) + 1 from rfl, getWriteTimestamp_retry _ _ h0]
      rw [show f3 + 2 = (f3 + 1) + 1 from rfl, getWriteTimestamp_retry _ _ h1]
      rw [getWriteTimestamp_ok _ _ h2]
      rfl
    · intro fuel hfuel
      obtain ⟨f3, rfl⟩ : ∃ f3, fuel = f3 + 3 := ⟨fuel - 3, by omega⟩
      unfold newLoaderState
      rw [show f3 + 3 = (f3 + 2) + 1 from rfl, getWriteTimestamp_retry _ _ h0]
      rw [show f3 + 2 = (f3 + 1) + 1 from rfl, getWriteTimestamp_retry _ _ h1]
      rw [getWriteTimestamp_ok _ _ h2]

/-- C6 witness at an authority that fails on attempts 0 and 1 and returns
start value 42 on attempt 2. -/
theorem c6_timestamp_bootstrap_witness :
    ((fun i => if i < 2 then (.error () : Except Unit Nat) else .ok 42) 0 =
      .error ()) ∧
    ((fun i => if i < 2 then (.error () : Except Unit Nat) else .ok 42) 1 =
      .error ()) ∧
    ((fun i => if i < 2 then (.error () : Except Unit Nat) else .ok 42) 2 =
      .ok 42) ∧
    getWriteTimestamp (fun i => if i < 2 then .error () else .ok 42) 3 0 [] =
      some (42, [ZeroAct.call 1, ZeroAct.sleep 1, ZeroAct.call 1,
        ZeroAct.sleep 1, ZeroAct.call 1]) ∧
    newLoaderState (fun i => if i < 2 then .error () else .ok 42) 3 =
      some ⟨42⟩ := by
  have h := c6_timestamp_bootstrap
    (fun i => if i < 2 then .error () else .ok 42) 42 rfl rfl rfl
  exact ⟨rfl, rfl, rfl, h.1 3 (by omega), h.2.2 3 (by omega)⟩

/-- loader.go `findDataFiles`: of the paths the directory walk visits, keep
those ending in the expected extension, plain or with the `.gz` suffix
appended. -/
def findDataFiles (paths : List (List Char)) (ext : List Char) :
    List (List Char) :=
  paths.filter fun p =>
    decide (ext.IsSuffix p) || decide ((ext ++ ['.', 'g', 'z']).IsSuffix p)

/-- The externally observable steps of `loader.mapStage` from entry to the
end of the completion protocol, in program order (loader.go lines 362-451).
Only the steps the claims mention are recorded. -/
inductive MapEvent where
  /-- opening the xid badger store (lines 365-378) -/
  | openXidStore
  /-- `os.Exit(1)` after "No *ext files found." (line 411) -/
  | exitProcess (code : Nat)
  /-- `go func(m *mapper) \x7b m.run(...) \x7d` (lines 416-421) -/
  | startMapper (idx : Nat)
  /-- the reader goroutine for one input file (lines 426-447) -/
  | startReader (file : List Char)
  /-- `thr.Wait()` (line 448) -/
  | readerJoin
  /-- `close(ld.readerChunkCh)` (line 450) -/
  | closeQueue
  /-- `mapperWg.Wait()` (line 451) -/
  | mapperJoin
deriving DecidableEq

/-- The sequential orchestrator body of `loader.mapStage`, linearized as
the list of observable steps it performs: open the xid store, discover the
data files, and either exit with status 1 when none matched (nothing after
an `os.Exit`) or start the mapper pool, start one reader per file, join
the readers, close the shared queue, and join the mappers. -/
def mapStageEvents (paths : List (List Char)) (ext : List Char)
    (numGoroutines : Nat) : List MapEvent :=
  let files := findDataFiles paths ext
  [MapEvent.openXidStore] ++
    (if files.length = 0 then [MapEvent.exitProcess 1]
     else ((List.range numGoroutines).map MapEvent.startMapper) ++
       (files.map MapEvent.startReader) ++
       [MapEvent.readerJoin, MapEvent.closeQueue, MapEvent.mapperJoin])

/-- Whether a map-stage step starts a worker goroutine (mapper or reader). -/
def isWorkerStart (e : MapEvent) : Bool :=
  match e with
  | MapEvent.startMapper _ => true
  | MapEvent.startReader _ => true
  | _ => false

/-- C7: when file discovery finds zero files with the expected extension
(plain or `.gz`), `loader.mapStage` exits the process with status 1, and
no mapper worker or reader goroutine is ever started: the linearized stage
performs only the store-open step and the non-zero exit. -/
theorem c7_no_files_exits_before_workers (paths : List (List Char))
    (ext : List Char) (numGoroutines : Nat)
    (h : findDataFiles paths ext = []) :
    mapStageEvents paths ext numGoroutines =
      [MapEvent.openXidStore, MapEvent.exitProcess 1] ∧
    MapEvent.exitProcess 1 ∈ mapStageEvents paths ext numGoroutines ∧
    (mapStageEvents paths ext numGoroutines).all
      (fun e => !isWorkerStart e) = true := by
  have hev : mapStageEvents paths ext numGoroutines =
      [MapEvent.openXidStore, MapEvent.exitProcess 1] := by
    unfold mapStageEvents
    rw [h]
    rfl
  refine ⟨hev, ?_, ?_⟩
  · rw [hev]
    simp
  · rw [hev]
    rfl

/-- C7 witness: a directory holding only `a.txt` has no `.rdf` data files,
and the stage exits before starting any worker. -/
theorem c7_no_files_exits_before_workers_witness :
    findDataFiles [['a', '.', 't', 'x', 't']] ['.', 'r', 'd', 'f'] = [] ∧
    mapStageEvents [['a', '.', 't', 'x', 't']] ['.', 'r', 'd', 'f'] 4 =
      [MapEvent.openXidStore, MapEvent.exitProcess 1] ∧
    MapEvent.exitProcess 1 ∈
      mapStageEvents [['a', '.', 't', 'x', 't']] ['.', 'r', 'd', 'f'] 4 ∧
    (mapStageEvents [['a', '.', 't', 'x', 't']] ['.', 'r', 'd', 'f'] 4).all
      (fun e => !isWorkerStart e) = true := by
  have h : findDataFiles [['a', '.', 't', 'x', 't']] ['.', 'r', 'd', 'f'] = [] := by
    decide
  exact ⟨h, c7_no_files_exits_before_workers _ _ 4 h⟩

end DgraphBulk
